import Mathlib

/-!
Verification development for the kextractor scanning engine.

Shallow embedding of `src/file/file.go` (the `file` package: `File`, `Scan`,
`Heap`, `ScanFiles`, and the aggregation loop of `main`) and of
`src/unnamed/part_000` (the older `Data` API: `Data.Scan`,
`Data.HasMatchedString`).

Modelling conventions:
* Raw line bytes are `List Nat` (one `Nat` per byte).
* A compiled regular expression (`*regexp.Regexp`) is modelled by its
  matching function `Matcher : List Nat → Bool`; a possibly-nil regexp
  field is `Option Matcher`.
* Go `error` values are modelled as opaque codes (`Nat`); a nil-able error
  is `Option Nat`.
* `os.Open` plus the subsequent `bufio.Reader` is modelled by a filesystem
  `FS` mapping a path to either an open error or the list of events that
  successive `reader.ReadLine()` calls produce.  The end of the event list
  is end-of-stream (`io.EOF`); a `readErr` event is a read error other than
  end-of-stream (in Go, `ReadLine` never returns data together with an
  error).
* A Go `map[int][]byte` is an association list updated by `mapSet`
  (replace the binding if the key is present, otherwise append it).
-/

namespace Kextractor

/-- A compiled regular expression, modelled by its `Match` function on raw
line bytes. -/
abbrev Matcher := List Nat → Bool

/-- One result of a `bufio.Reader.ReadLine()` call: either a chunk of line
bytes (`more` is the source's isPrefix flag: the line is not finished), or
a read error other than end-of-stream. -/
inductive ReadEvent where
  | chunk (bytes : List Nat) (more : Bool)
  | readErr (e : Nat)
deriving DecidableEq

/-- The filesystem seen by `File.Scan`: opening a path either fails with an
error or yields the stream of `ReadLine` events of the file's contents. -/
abbrev FS := String → Except Nat (List ReadEvent)

/-- Go map assignment `m[k] = v` on an association list: replace the
binding of `k` if present, otherwise append `(k, v)`. -/
def mapSet (m : List (Nat × List Nat)) (k : Nat) (v : List Nat) :
    List (Nat × List Nat) :=
  if m.any (fun p => p.1 = k) then
    m.map (fun p => if p.1 = k then (k, v) else p)
  else
    m ++ [(k, v)]

/-- `File` from `src/file/file.go`: path, match pattern, ignore pattern,
the matched lines (line number → raw bytes) and the scan error. -/
structure File where
  path : String
  matchRegex : Option Matcher
  ignoreRegex : Option Matcher
  matchedLines : List (Nat × List Nat)
  scanError : Option Nat

/-- The scanning loop of `File.Scan` (file.go lines 50-77): reads events,
accumulates `line` across continuation chunks; on a completed line
increments the line number, skips the line if the ignore pattern is set
and matches, otherwise records it when the match pattern matches; a
`readErr` event sets the scan error and breaks; end of the event stream
(end-of-stream) breaks with no error.  Returns the final matched-lines map
and the scan error. -/
def scanLoop (m : Matcher) (ig : Option Matcher) :
    List ReadEvent → List Nat → Nat → List (Nat × List Nat) →
    List (Nat × List Nat) × Option Nat
  | [], _, _, acc => (acc, none)
  | ReadEvent.readErr e :: _, _, _, acc => (acc, some e)
  | ReadEvent.chunk c true :: rest, line, n, acc =>
      scanLoop m ig rest (line ++ c) n acc
  | ReadEvent.chunk c false :: rest, line, n, acc =>
      let full := line ++ c
      if (match ig with | some g => g full | none => false) then
        scanLoop m ig rest [] (n + 1) acc
      else if m full then
        scanLoop m ig rest [] (n + 1) (mapSet acc (n + 1) full)
      else
        scanLoop m ig rest [] (n + 1) acc

/-- `File.Scan` (file.go lines 33-78): returns immediately when the match
pattern is nil; otherwise opens the path (an open failure becomes the scan
error) and runs the scanning loop on the file's read events. -/
def File.scan (fs : FS) (f : File) : File :=
  match f.matchRegex with
  | none => f
  | some m =>
      match fs f.path with
      | Except.error e => { f with scanError := some e }
      | Except.ok events =>
          let r := scanLoop m f.ignoreRegex events [] 0 f.matchedLines
          { f with matchedLines := r.1, scanError := r.2 }

/-! ## The older `Data` API (`src/unnamed/part_000`) -/

/-- `Data` from `src/unnamed/part_000`: path, match pattern (a pattern
string compiled on each `regexp.MatchString` call; compilation is
deterministic, so it is modelled once and for all by its result: either a
compilation error or the compiled matcher on line text), the matched
lines, the `isScanned` flag and the scan error. -/
structure Data where
  path : String
  matchString : Except Nat (String → Bool)
  linesContainingMatchString : List (Nat × String)
  isScanned : Bool
  ScanError : Option Nat

/-- `New` from `src/unnamed/part_000`: fresh `Data` with an empty map, not
scanned, no error. -/
def Data.new (path : String) (matchString : Except Nat (String → Bool)) :
    Data :=
  ⟨path, matchString, [], false, none⟩

/-- Go map assignment for `map[int]string`. -/
def dmapSet (m : List (Nat × String)) (k : Nat) (v : String) :
    List (Nat × String) :=
  if m.any (fun p => p.1 = k) then
    m.map (fun p => if p.1 = k then (k, v) else p)
  else
    m ++ [(k, v)]

/-- The `bufio.Scanner` of an opened file: the successive lines
`scanner.Scan`/`scanner.Text` yield, and the value of `scanner.Err()`
observed after the loop (`none` for plain end-of-stream). -/
abbrev ScannerSrc := List String × Option Nat

/-- The filesystem seen by `Data.Scan`. -/
abbrev DFS := String → Except Nat ScannerSrc

/-- The line loop of `Data.Scan` (part_000 lines 42-58): for each line, a
comment line only advances the line number; otherwise
`regexp.MatchString` is evaluated — a compilation error is returned at
once — and a matching line is recorded under the current line number.
Returns the final map and the early-return error, if any. -/
def dataScanLoop (fn : String → Bool) (mr : Except Nat (String → Bool)) :
    List String → Nat → List (Nat × String) →
    List (Nat × String) × Option Nat
  | [], _, acc => (acc, none)
  | lineText :: rest, n, acc =>
      if fn lineText then
        dataScanLoop fn mr rest (n + 1) acc
      else
        match mr with
        | Except.error e => (acc, some e)
        | Except.ok m =>
            if m lineText then
              dataScanLoop fn mr rest (n + 1) (dmapSet acc n lineText)
            else
              dataScanLoop fn mr rest (n + 1) acc

/-- `Data.Scan` (part_000 lines 31-65): an open failure becomes
`ScanError`; otherwise the line loop runs (its early-return error becomes
`ScanError`); then a scanner error becomes `ScanError`; only when nothing
failed is `isScanned` set to true. -/
def Data.scan (dfs : DFS) (fn : String → Bool) (d : Data) : Data :=
  match dfs d.path with
  | Except.error e => { d with ScanError := some e }
  | Except.ok (lines, scanErr) =>
      match dataScanLoop fn d.matchString lines 1 d.linesContainingMatchString with
      | (acc, some e) =>
          { d with linesContainingMatchString := acc, ScanError := some e }
      | (acc, none) =>
          match scanErr with
          | some e =>
              { d with linesContainingMatchString := acc, ScanError := some e }
          | none =>
              { d with linesContainingMatchString := acc, isScanned := true }

/-- `Data.HasMatchedString` (part_000 lines 68-73): false unless the scan
completed (`isScanned`), then whether the matched-lines map is non-empty. -/
def Data.hasMatchedString (d : Data) : Bool :=
  if !d.isScanned then false
  else decide (0 < d.linesContainingMatchString.length)

/-! ## The `Heap` of `File`s (file.go lines 110-148) and Go's
`container/heap` algorithms.

`Heap` is a slice of `File`s, modelled as `List File`, with
`Less i j = h[i].path < h[j].path` (`String` order is lexicographic, as
Go's `<` on strings).  `heapUp`/`heapDown` are the `up`/`down` functions
of Go's `container/heap` package; `heapPush`/`heapPop` are
`heap.Push`/`heap.Pop` specialised to this `Heap` (whose interface `Push`
appends and whose interface `Pop` removes and returns the last element).
All index accesses of the algorithms are in bounds; `hget` uses a default
`File` out of bounds. -/

/-- Default `File` for out-of-bounds indexing (never reached by the
algorithms). -/
def dfltFile : File := ⟨"", none, none, [], none⟩

/-- Indexing into the heap slice. -/
def hget (l : List File) (i : Nat) : File := l.getD i dfltFile

/-- `Heap.Swap` (file.go lines 121-123). -/
def hswap (l : List File) (i j : Nat) : List File :=
  (l.set i (hget l j)).set j (hget l i)

/-- `up` from Go's `container/heap`: sift the element at index `j` up
while it is `Less` than its parent. -/
def heapUp (l : List File) (j : Nat) : List File :=
  let i := (j - 1) / 2
  if _h : i = j then l
  else if (hget l j).path < (hget l i).path then heapUp (hswap l i j) i
  else l
termination_by j
decreasing_by
  omega

/-- The child index `down` swaps with: the right child when it exists and
is `Less` than the left child, otherwise the left child (the `j` computed
in Go's `down` loop body). -/
def smallerChild (l : List File) (i n : Nat) : Nat :=
  if 2 * i + 2 < n ∧ (hget l (2 * i + 2)).path < (hget l (2 * i + 1)).path then
    2 * i + 2
  else 2 * i + 1

/-- `down` from Go's `container/heap` restricted to the slice prefix of
length `n`: sift the element at index `i` down, always swapping with the
smaller child.  (The source's boolean result `i > i0` is unused by
`heap.Pop` and is not modelled.) -/
def heapDown (l : List File) (i n : Nat) : List File :=
  if _h1 : 2 * i + 1 < n then
    if (hget l (smallerChild l i n)).path < (hget l i).path then
      heapDown (hswap l i (smallerChild l i n)) (smallerChild l i n) n
    else l
  else l
termination_by n - i
decreasing_by
  unfold smallerChild; split <;> omega

/-- `heap.Push` on this `Heap`: the interface `Push` appends, then the
new last element is sifted up. -/
def heapPush (l : List File) (x : File) : List File :=
  heapUp (l ++ [x]) l.length

/-- `heap.Pop` on this `Heap`: swap the root with the last element, sift
the new root down over the first `n` elements, then the interface `Pop`
removes and returns the last element.  `none` on an empty heap (Go would
panic; `Heap.Print` only pops while `Len() > 0`). -/
def heapPop (l : List File) : Option (File × List File) :=
  match l with
  | [] => none
  | _ :: _ =>
      let n := l.length - 1
      let l' := heapDown (hswap l 0 n) 0 n
      some (hget l' n, l'.take n)

/-- The extraction loop of `Heap.Print` (file.go lines 140-148): pop until
empty, collecting the popped `File`s in order. -/
def popAll (l : List File) : List File :=
  match _h : heapPop l with
  | none => []
  | some (x, l') => x :: popAll l'
termination_by l.length
decreasing_by
  simp only [heapPop] at _h
  split at _h
  · exact absurd _h (by simp)
  · simp only [Option.some.injEq, Prod.mk.injEq] at _h
    obtain ⟨-, h2⟩ := _h
    subst h2
    simp only [List.length_take]
    rename_i a as
    simp only [List.length_cons]
    omega

/-- Building the heap as `main` does: start from the empty
(`heap.Init`-ed) heap and `heap.Push` each arriving `File`. -/
def pushAll (files : List File) : List File :=
  files.foldl heapPush []

/-! ## `ScanFiles` (file.go lines 151-174).

One goroutine per path scans the path's file and sends the resulting
`File` on the unbuffered channel `cp`; a closing goroutine waits on the
`WaitGroup` (each worker's `wg.Done` is deferred, hence runs after its
send) and then closes the channel.  The scheduler is modelled as a step
relation on a state holding the paths whose goroutine has not yet sent
(`pending`), the `File`s received so far in arrival order (`delivered`),
and whether the channel has been closed. -/

/-- The `File` a `ScanFiles` worker sends for `filePath`
(file.go lines 162-165): a fresh `File` with the shared patterns and an
empty map, after `Scan`. -/
def scanNew (fs : FS) (m ig : Option Matcher) (filePath : String) : File :=
  File.scan fs ⟨filePath, m, ig, [], none⟩

/-- State of one `ScanFiles` batch. -/
structure SFState where
  pending : List String
  delivered : List File
  closed : Bool

/-- One scheduler step of `ScanFiles`: either some still-pending worker
completes its scan and its send is received, or — once every worker has
sent, hence every deferred `wg.Done` has run — the closing goroutine
closes the channel. -/
inductive SFStep (fs : FS) (m ig : Option Matcher) : SFState → SFState → Prop
  | deliver (s : SFState) (p : String) (hp : p ∈ s.pending)
      (hc : s.closed = false) :
      SFStep fs m ig s
        ⟨s.pending.erase p, s.delivered ++ [scanNew fs m ig p], false⟩
  | close (s : SFState) (hp : s.pending = []) (hc : s.closed = false) :
      SFStep fs m ig s ⟨[], s.delivered, true⟩

/-- Reachability of `ScanFiles` states from the batch's initial state
(all paths pending, nothing delivered, channel open). -/
def SFReach (fs : FS) (m ig : Option Matcher) (filePaths : List String)
    (s : SFState) : Prop :=
  Relation.ReflTransGen (SFStep fs m ig) ⟨filePaths, [], false⟩ s

/-! ## The aggregation loop of `main` (file.go lines 254-268).

For each `File` received from the completion stream: a scan error
increments the error counter and skips the file; otherwise the file is
pushed onto the sorted heap exactly when its matched-lines map
(`FoundLines`, the accessor for the scan's matched lines) is non-empty. -/

/-- Aggregation state: the sorted report heap and the error counter. -/
structure AggState where
  report : List File
  scanErrorsCnt : Nat

/-- Modelled from the spec: `File.FoundLines`, the accessor `main` calls
for a scan's matched lines, has no definition among the source files (the
`file` package there names it `MatchedLines`); per the spec it is the
`File`'s MatchSet, the matched-lines map produced by the scan. -/
def File.foundLines (f : File) : List (Nat × List Nat) :=
  f.matchedLines

/-- One iteration of `main`'s result loop. -/
def aggStep (s : AggState) (f : File) : AggState :=
  if f.scanError.isSome then
    { s with scanErrorsCnt := s.scanErrorsCnt + 1 }
  else if 0 < f.foundLines.length then
    { s with report := heapPush s.report f }
  else s

/-- `main`'s whole aggregation: fold the result loop over the received
`File`s, starting from the empty heap and a zero error count. -/
def aggregate (results : List File) : AggState :=
  results.foldl aggStep ⟨[], 0⟩

/-! ## Specification-level helper predicates -/

/-- Whether a `ReadLine` event is a read error (other than
end-of-stream). -/
def ReadEvent.isErr : ReadEvent → Bool
  | ReadEvent.readErr _ => true
  | ReadEvent.chunk _ _ => false

/-- Parent index in the implicit binary heap. -/
def hparent (j : Nat) : Nat := (j - 1) / 2

/-- The comparison key of a heap slot: the `File`'s path (`Heap.Less`
compares paths with `<`). -/
def key (l : List File) (i : Nat) : String := (hget l i).path

/-- The binary-heap invariant on the first `n` slots: every non-root slot
is at least its parent. -/
def HeapUpTo (l : List File) (n : Nat) : Prop :=
  ∀ j, 0 < j → j < n → key l (hparent j) ≤ key l j

/-- Sift-up invariant: the heap property holds on the first `n` slots at
every edge except possibly the one entering `j`. -/
def UpInv1 (l : List File) (n j : Nat) : Prop :=
  ∀ k, 0 < k → k < n → k ≠ j → key l (hparent k) ≤ key l k

/-- Sift-up invariant: every child of `j` is at least `j`'s parent. -/
def UpInv2 (l : List File) (n j : Nat) : Prop :=
  ∀ k, k < n → hparent k = j → 0 < j → key l (hparent j) ≤ key l k

/-- Sift-down invariant: the heap property holds on the first `n` slots
at every edge except possibly the ones leaving `i`. -/
def DownInv1 (l : List File) (n i : Nat) : Prop :=
  ∀ k, 0 < k → k < n → hparent k ≠ i → key l (hparent k) ≤ key l k

/-- Sift-down invariant: every child of `i` is at least `i`'s parent. -/
def DownInv2 (l : List File) (n i : Nat) : Prop :=
  ∀ k, k < n → hparent k = i → 0 < i → key l (hparent i) ≤ key l k

/-! # Theorems

## Generic list indexing and swapping lemmas -/

theorem getD_set_self {α : Type} (l : List α) (i : Nat) (a d : α)
    (h : i < l.length) : (l.set i a).getD i d = a := by
  have h' : i < (l.set i a).length := by simpa using h
  rw [List.getD_eq_getElem _ _ h', List.getElem_set_self]

theorem getD_set_ne {α : Type} (l : List α) (i j : Nat) (a d : α)
    (h : i ≠ j) : (l.set i a).getD j d = l.getD j d := by
  simp [List.getD_eq_getElem?_getD, List.getElem?_set_ne h]

theorem getD_append_lt {α : Type} (l m : List α) (i : Nat) (d : α)
    (h : i < l.length) : (l ++ m).getD i d = l.getD i d := by
  simp [List.getD_eq_getElem?_getD, List.getElem?_append, h]

theorem getD_take_lt {α : Type} (l : List α) (i n : Nat) (d : α)
    (h : i < n) : (l.take n).getD i d = l.getD i d := by
  simp [List.getD_eq_getElem?_getD, List.getElem?_take, h]

theorem set_getD_of_lt {α : Type} (l : List α) (i : Nat) (d : α)
    (h : i < l.length) : l.set i (l.getD i d) = l := by
  induction l generalizing i with
  | nil => simp at h
  | cons a t ih =>
      cases i with
      | zero => simp
      | succ k =>
          simp only [List.length_cons] at h
          have := ih k (by omega)
          simp only [List.getD_eq_getElem?_getD] at this
          simp [List.getD_cons_succ, this]

theorem swap_cons_perm {α : Type} (d : α) :
    ∀ (t : List α) (k : Nat) (a : α), k < t.length →
      (t.getD k d :: t.set k a).Perm (a :: t) := by
  intro t
  induction t with
  | nil => intro k a h; simp at h
  | cons y s ih =>
      intro k a h
      cases k with
      | zero => simpa using List.Perm.swap a y s
      | succ k =>
          simp only [List.length_cons] at h
          simp only [List.getD_cons_succ, List.set_cons_succ]
          exact ((List.Perm.swap y (s.getD k d) (s.set k a)).trans
            ((ih k a (by omega)).cons y)).trans (List.Perm.swap a y s)


/-! ## `hswap` lemmas -/

theorem length_hswap (l : List File) (i j : Nat) :
    (hswap l i j).length = l.length := by
  simp [hswap]

theorem hget_hswap_fst (l : List File) (i j : Nat) (hi : i < l.length)
    (hj : j < l.length) : hget (hswap l i j) i = hget l j := by
  unfold hswap hget
  by_cases hij : j = i
  · subst hij
    rw [getD_set_self]
    simpa using hj
  · rw [getD_set_ne _ _ _ _ _ hij, getD_set_self _ _ _ _ hi]

theorem hget_hswap_snd (l : List File) (i j : Nat) (hj : j < l.length) :
    hget (hswap l i j) j = hget l i := by
  unfold hswap hget
  rw [getD_set_self]
  simpa using hj

theorem hget_hswap_other (l : List File) (i j k : Nat) (hki : k ≠ i)
    (hkj : k ≠ j) : hget (hswap l i j) k = hget l k := by
  unfold hswap hget
  rw [getD_set_ne _ _ _ _ _ (Ne.symm hkj), getD_set_ne _ _ _ _ _ (Ne.symm hki)]

theorem hswap_comm (l : List File) (i j : Nat) (h : i ≠ j) :
    hswap l i j = hswap l j i := by
  unfold hswap
  exact List.set_comm _ _ l h

theorem hswap_perm_lt :
    ∀ (l : List File) (i j : Nat), i < j → j < l.length →
      (hswap l i j).Perm l := by
  intro l
  induction l with
  | nil => intro i j _ hj; simp at hj
  | cons x t ih =>
      intro i j hij hj
      cases j with
      | zero => omega
      | succ k =>
          simp only [List.length_cons] at hj
          cases i with
          | zero =>
              have hk : k < t.length := by omega
              unfold hswap hget
              simp only [List.getD_cons_succ, List.getD_cons_zero,
                List.set_cons_zero, List.set_cons_succ]
              exact swap_cons_perm dfltFile t k x hk
          | succ m =>
              unfold hswap hget
              simp only [List.getD_cons_succ, List.set_cons_succ]
              exact (ih m k (by omega) (by omega)).cons x

theorem hswap_perm (l : List File) (i j : Nat) (hi : i < l.length)
    (hj : j < l.length) : (hswap l i j).Perm l := by
  rcases Nat.lt_trichotomy i j with h | h | h
  · exact hswap_perm_lt l i j h hj
  · subst h
    unfold hswap hget
    rw [List.set_set, set_getD_of_lt _ _ _ hi]
  · rw [hswap_comm l i j (by omega)]
    exact hswap_perm_lt l j i h hi

/-! ## Heap algorithm correctness -/

theorem hparent_lt (j : Nat) (h : 0 < j) : hparent j < j := by
  unfold hparent; omega

theorem child_cases (k i : Nat) (h : hparent k = i) (hk : 0 < k) :
    k = 2 * i + 1 ∨ k = 2 * i + 2 := by
  unfold hparent at h; omega

theorem length_heapUp (l : List File) (j : Nat) :
    (heapUp l j).length = l.length := by
  induction l, j using heapUp.induct with
  | case1 l j i hij => rw [heapUp]; rw [dif_pos hij]
  | case2 l j i hij hlt ih =>
      rw [heapUp]; rw [dif_neg hij, if_pos hlt]
      exact ih.trans (length_hswap l i j)
  | case3 l j i hij hlt => rw [heapUp]; rw [dif_neg hij, if_neg hlt]

theorem heapUp_perm (l : List File) (j : Nat) (hj : j < l.length) :
    (heapUp l j).Perm l := by
  induction l, j using heapUp.induct with
  | case1 l j i hij => rw [heapUp]; rw [dif_pos hij]
  | case2 l j i hij hlt ih =>
      rw [heapUp]; rw [dif_neg hij, if_pos hlt]
      have hj0 : j ≠ 0 := by intro h; subst h; exact hij rfl
      have hij' : i < j := by show (j - 1) / 2 < j; omega
      exact (ih (by rw [length_hswap]; omega)).trans
        (hswap_perm l i j (by omega) hj)
  | case3 l j i hij hlt => rw [heapUp]; rw [dif_neg hij, if_neg hlt]

theorem heapUp_heap (n : Nat) :
    ∀ (l : List File) (j : Nat), n ≤ l.length → j < n →
      UpInv1 l n j → UpInv2 l n j → HeapUpTo (heapUp l j) n := by
  intro l j
  induction l, j using heapUp.induct with
  | case1 l j i hij =>
      intro hn hj h1 h2
      rw [heapUp, dif_pos hij]
      have hj0 : j = 0 := by
        have h' : (j - 1) / 2 = j := hij
        omega
      subst hj0
      intro k hk0 hkn
      exact h1 k hk0 hkn (by omega)
  | case2 l j i hij hlt ih =>
      intro hn hj h1 h2
      rw [heapUp, dif_neg hij, if_pos hlt]
      have hj0 : j ≠ 0 := by intro h; subst h; exact hij rfl
      have hpj : hparent j = i := rfl
      have hij' : i < j := by show (j - 1) / 2 < j; omega
      have hil : i < l.length := by omega
      have hjl : j < l.length := by omega
      apply ih (by rw [length_hswap]; exact hn) (by omega)
      · -- UpInv1 (hswap l i j) n i
        intro k hk0 hkn hki
        have hpklt : hparent k < k := hparent_lt k hk0
        unfold key
        by_cases hkj : k = j
        · rw [hkj]
          rw [hpj, hget_hswap_fst l i j hil hjl, hget_hswap_snd l i j hjl]
          exact le_of_lt hlt
        · rw [hget_hswap_other l i j k hki hkj]
          by_cases hpkj : hparent k = j
          · rw [hpkj, hget_hswap_snd l i j hjl]
            have := h2 k hkn (by rw [hpkj]) (by omega)
            rwa [key, key, hpj] at this
          · by_cases hpki : hparent k = i
            · rw [hpki, hget_hswap_fst l i j hil hjl]
              have := h1 k hk0 hkn hkj
              rw [key, key, hpki] at this
              exact le_trans (le_of_lt hlt) this
            · rw [hget_hswap_other l i j (hparent k) hpki hpkj]
              exact h1 k hk0 hkn hkj
      · -- UpInv2 (hswap l i j) n i
        intro k hkn hpk hi0
        have hpilt : hparent i < i := hparent_lt i hi0
        have hk0 : 0 < k := by
          unfold hparent at hpk; omega
        have hki : k ≠ i := by
          have := hparent_lt k hk0
          omega
        unfold key
        rw [hget_hswap_other l i j (hparent i) (by omega) (by omega)]
        by_cases hkj : k = j
        · rw [hkj]
          rw [hget_hswap_snd l i j hjl]
          have := h1 i hi0 (by omega) (by omega)
          rwa [key, key] at this
        · rw [hget_hswap_other l i j k hki hkj]
          have ha := h1 i hi0 (by omega) (by omega)
          have hb := h1 k hk0 hkn hkj
          rw [key, key] at ha hb
          rw [hpk] at hb
          exact le_trans ha hb
  | case3 l j i hij hlt =>
      intro hn hj h1 h2
      rw [heapUp, dif_neg hij, if_neg hlt]
      have hj0 : j ≠ 0 := by intro h; subst h; exact hij rfl
      have hpj : hparent j = i := rfl
      intro k hk0 hkn
      by_cases hkj : k = j
      · rw [hkj] at hk0 hkn ⊢
        rw [key, key, hpj]
        exact le_of_not_lt hlt
      · exact h1 k hk0 hkn hkj

theorem sc_cases (l : List File) (i n : Nat) :
    smallerChild l i n = 2 * i + 1 ∨ smallerChild l i n = 2 * i + 2 := by
  unfold smallerChild; split
  · exact Or.inr rfl
  · exact Or.inl rfl

theorem sc_gt (l : List File) (i n : Nat) : i < smallerChild l i n := by
  rcases sc_cases l i n with h | h <;> omega

theorem sc_lt_n (l : List File) (i n : Nat) (h1 : 2 * i + 1 < n) :
    smallerChild l i n < n := by
  unfold smallerChild; split
  · omega
  · omega

theorem sc_hparent (l : List File) (i n : Nat) :
    hparent (smallerChild l i n) = i := by
  rcases sc_cases l i n with h | h <;> rw [h] <;> unfold hparent <;> omega

theorem sc_le_left (l : List File) (i n : Nat) :
    key l (smallerChild l i n) ≤ key l (2 * i + 1) := by
  unfold key smallerChild; split
  · rename_i h
    exact le_of_lt h.2
  · exact le_refl _

theorem sc_le_right (l : List File) (i n : Nat) (h2 : 2 * i + 2 < n) :
    key l (smallerChild l i n) ≤ key l (2 * i + 2) := by
  unfold key smallerChild; split
  · exact le_refl _
  · rename_i h
    have hnl : ¬(hget l (2 * i + 2)).path < (hget l (2 * i + 1)).path :=
      fun hl => h ⟨h2, hl⟩
    exact le_of_not_lt hnl

theorem length_heapDown (l : List File) (i n : Nat) :
    (heapDown l i n).length = l.length := by
  induction l, i, n using heapDown.induct with
  | case1 l i n h1 hlt ih =>
      rw [heapDown, dif_pos h1, if_pos hlt]
      exact ih.trans (length_hswap _ _ _)
  | case2 l i n h1 hlt => rw [heapDown, dif_pos h1, if_neg hlt]
  | case3 l i n h1 => rw [heapDown, dif_neg h1]

theorem heapDown_perm (l : List File) (i n : Nat) (hn : n ≤ l.length) :
    (heapDown l i n).Perm l := by
  induction l, i, n using heapDown.induct with
  | case1 l i n h1 hlt ih =>
      rw [heapDown, dif_pos h1, if_pos hlt]
      have hscn := sc_lt_n l i n h1
      exact (ih (by rw [length_hswap]; exact hn)).trans
        (hswap_perm l i (smallerChild l i n) (by omega) (by omega))
  | case2 l i n h1 hlt => rw [heapDown, dif_pos h1, if_neg hlt]
  | case3 l i n h1 => rw [heapDown, dif_neg h1]

theorem hget_heapDown_ge (l : List File) (i n k : Nat) (hk : n ≤ k) :
    hget (heapDown l i n) k = hget l k := by
  induction l, i, n using heapDown.induct with
  | case1 l i n h1 hlt ih =>
      rw [heapDown, dif_pos h1, if_pos hlt]
      have hscn := sc_lt_n l i n h1
      rw [ih hk, hget_hswap_other l i (smallerChild l i n) k (by omega) (by omega)]
  | case2 l i n h1 hlt => rw [heapDown, dif_pos h1, if_neg hlt]
  | case3 l i n h1 => rw [heapDown, dif_neg h1]

theorem heapDown_heap :
    ∀ (l : List File) (i n : Nat), n ≤ l.length →
      DownInv1 l n i → DownInv2 l n i → HeapUpTo (heapDown l i n) n := by
  intro l i n
  induction l, i, n using heapDown.induct with
  | case1 l i n h1 hlt ih =>
      intro hn d1 d2
      rw [heapDown, dif_pos h1, if_pos hlt]
      have hscn := sc_lt_n l i n h1
      have hsci := sc_gt l i n
      have hpsc := sc_hparent l i n
      have hil : i < l.length := by omega
      have hscl : smallerChild l i n < l.length := by omega
      apply ih (by rw [length_hswap]; exact hn)
      · -- DownInv1 (hswap l i sc) n sc
        intro k hk0 hkn hpk_ne
        unfold key
        by_cases hki : k = i
        · rw [hki] at hk0 hkn ⊢
          have hpi := hparent_lt i hk0
          rw [hget_hswap_other l i (smallerChild l i n) (hparent i)
            (by omega) (by omega)]
          rw [hget_hswap_fst l i (smallerChild l i n) hil hscl]
          have := d2 (smallerChild l i n) hscn hpsc hk0
          rwa [key, key] at this
        · by_cases hksc : k = smallerChild l i n
          · rw [hksc, hpsc]
            rw [hget_hswap_fst l i (smallerChild l i n) hil hscl,
              hget_hswap_snd l i (smallerChild l i n) hscl]
            exact le_of_lt hlt
          · rw [hget_hswap_other l i (smallerChild l i n) k hki hksc]
            by_cases hpki : hparent k = i
            · rw [hpki, hget_hswap_fst l i (smallerChild l i n) hil hscl]
              rcases child_cases k i hpki hk0 with hk | hk
              · have : smallerChild l i n = 2 * i + 2 := by
                  rcases sc_cases l i n with h | h
                  · rw [← hk] at h; exact absurd h.symm hksc
                  · exact h
                have hle := sc_le_left l i n
                rw [key, key, ← hk] at hle
                exact hle
              · have hle := sc_le_right l i n (by omega)
                rw [key, key, ← hk] at hle
                exact hle
            · rw [hget_hswap_other l i (smallerChild l i n) (hparent k)
                hpki hpk_ne]
              exact d1 k hk0 hkn hpki
      · -- DownInv2 (hswap l i sc) n sc
        intro k hkn hpk _
        unfold key
        rw [hpsc]
        have hk0 : 0 < k := by
          have := sc_gt l i n
          unfold hparent at hpk
          omega
        have hksc : k ≠ smallerChild l i n := by
          have := hparent_lt k hk0
          omega
        have hki : k ≠ i := by
          have := hparent_lt k hk0
          omega
        rw [hget_hswap_fst l i (smallerChild l i n) hil hscl,
          hget_hswap_other l i (smallerChild l i n) k hki hksc]
        have := d1 k hk0 hkn (by rw [hpk]; omega)
        rw [key, key, hpk] at this
        exact this
  | case2 l i n h1 hlt =>
      intro hn d1 d2
      rw [heapDown, dif_pos h1, if_neg hlt]
      intro k hk0 hkn
      by_cases hpki : hparent k = i
      · rw [key, key, hpki]
        have hle : key l i ≤ key l (smallerChild l i n) := le_of_not_lt hlt
        rcases child_cases k i hpki hk0 with hk | hk
        · have h2 := sc_le_left l i n
          rw [← hk] at h2
          exact le_trans hle h2
        · have h2 := sc_le_right l i n (by omega)
          rw [← hk] at h2
          exact le_trans hle h2
      · exact d1 k hk0 hkn hpki
  | case3 l i n h1 =>
      intro hn d1 d2
      rw [heapDown, dif_neg h1]
      intro k hk0 hkn
      by_cases hpki : hparent k = i
      · rcases child_cases k i hpki hk0 with hk | hk <;> omega
      · exact d1 k hk0 hkn hpki

theorem root_min (l : List File) (n : Nat) (hh : HeapUpTo l n) :
    ∀ j, j < n → key l 0 ≤ key l j := by
  intro j
  induction j using Nat.strong_induction_on with
  | _ j ih =>
      intro hj
      cases Nat.eq_zero_or_pos j with
      | inl h => rw [h]
      | inr h =>
          have hplt := hparent_lt j h
          exact le_trans (ih (hparent j) hplt (by omega)) (hh j h hj)

theorem length_heapPush (l : List File) (x : File) :
    (heapPush l x).length = l.length + 1 := by
  unfold heapPush
  rw [length_heapUp]
  simp

theorem heapPush_perm (l : List File) (x : File) :
    (heapPush l x).Perm (x :: l) := by
  unfold heapPush
  exact (heapUp_perm (l ++ [x]) l.length (by simp)).trans
    (List.perm_append_singleton x l)

theorem heapPush_heap (l : List File) (x : File)
    (hh : HeapUpTo l l.length) :
    HeapUpTo (heapPush l x) (l.length + 1) := by
  unfold heapPush
  apply heapUp_heap (l.length + 1) (l ++ [x]) l.length (by simp) (by omega)
  · intro k hk0 hkn hkj
    have hkl : k < l.length := by omega
    have hpk : hparent k < l.length := by
      have := hparent_lt k hk0
      omega
    have := hh k hk0 hkl
    unfold key hget at this ⊢
    rw [getD_append_lt _ _ _ _ hpk, getD_append_lt _ _ _ _ hkl]
    exact this
  · intro k hkn hpk hj0
    unfold hparent at hpk
    omega

theorem heapPop_spec (l : List File) (x : File) (rest : List File)
    (hpop : heapPop l = some (x, rest)) (hh : HeapUpTo l l.length) :
    x = hget l 0 ∧ (x :: rest).Perm l ∧ HeapUpTo rest rest.length ∧
      rest.length = l.length - 1 := by
  cases l with
  | nil => simp [heapPop] at hpop
  | cons a t =>
      simp only [heapPop] at hpop
      rw [Option.some.injEq, Prod.mk.injEq] at hpop
      obtain ⟨hx, hrest⟩ := hpop
      have hn1 : (a :: t).length - 1 = t.length := by simp
      rw [hn1] at hx hrest
      have hlen : (a :: t).length = t.length + 1 := by simp
      have hl1len : (hswap (a :: t) 0 t.length).length = t.length + 1 := by
        rw [length_hswap, hlen]
      have hl2len :
          (heapDown (hswap (a :: t) 0 t.length) 0 t.length).length
            = t.length + 1 := by
        rw [length_heapDown, hl1len]
      -- the popped element is the old root
      have hx0 : x = hget (a :: t) 0 := by
        rw [← hx, hget_heapDown_ge _ _ _ _ (le_refl t.length),
          hget_hswap_snd _ _ _ (by omega)]
      -- the down precondition
      have hd1 : DownInv1 (hswap (a :: t) 0 t.length) t.length 0 := by
        intro k hk0 hkn hpk0
        have hpklt := hparent_lt k hk0
        unfold key
        rw [hget_hswap_other _ _ _ k (by omega) (by omega),
          hget_hswap_other _ _ _ (hparent k) hpk0 (by omega)]
        exact hh k hk0 (by rw [hlen]; omega)
      have hd2 : DownInv2 (hswap (a :: t) 0 t.length) t.length 0 := by
        intro k hkn hpk h0
        omega
      have hheap2 :
          HeapUpTo (heapDown (hswap (a :: t) 0 t.length) 0 t.length)
            t.length :=
        heapDown_heap _ _ _ (by rw [hl1len]; omega) hd1 hd2
      -- rest is the first t.length entries
      have hrestlen : rest.length = t.length := by
        rw [← hrest, List.length_take, hl2len]
        omega
      refine ⟨hx0, ?_, ?_, by rw [hrestlen, hlen]; omega⟩
      · -- permutation
        have hsplit :
            rest ++ [x]
              = heapDown (hswap (a :: t) 0 t.length) 0 t.length := by
          rw [← hrest, ← hx]
          have hdrop :
              (heapDown (hswap (a :: t) 0 t.length) 0 t.length).drop t.length
                = [hget (heapDown (hswap (a :: t) 0 t.length) 0 t.length)
                    t.length] := by
            rw [List.drop_eq_getElem_cons (by omega)]
            rw [List.drop_eq_nil_of_le (by omega)]
            rw [hget, List.getD_eq_getElem _ _ (by omega)]
          rw [← hdrop, List.take_append_drop]
        have hperm2 :
            (heapDown (hswap (a :: t) 0 t.length) 0 t.length).Perm (a :: t) :=
          (heapDown_perm _ _ _ (by rw [hl1len]; omega)).trans
            (hswap_perm _ _ _ (by simp) (by rw [hlen]; omega))
        rw [← hsplit] at hperm2
        exact (List.perm_append_singleton x rest).symm.trans hperm2
      · -- heap on rest
        intro k hk0 hkn
        rw [hrestlen] at hkn
        have hpklt := hparent_lt k hk0
        rw [← hrest]
        unfold key hget
        rw [getD_take_lt _ _ _ _ hkn,
          getD_take_lt _ _ _ _ (by omega : hparent k < t.length)]
        have := hheap2 k hk0 hkn
        unfold key hget at this
        exact this

theorem popAll_spec :
    ∀ l : List File, HeapUpTo l l.length →
      (popAll l).Perm l ∧
        List.Sorted (fun a b : File => a.path ≤ b.path) (popAll l) := by
  intro l
  induction l using popAll.induct with
  | case1 l hpop =>
      intro hh
      have hl : l = [] := by
        cases l with
        | nil => rfl
        | cons a t => simp [heapPop] at hpop
      subst hl
      rw [popAll.eq_def, hpop]
      exact ⟨List.Perm.refl [], List.sorted_nil⟩
  | case2 l x l' hpop ih =>
      intro hh
      obtain ⟨hx, hperm, hheap, hlen⟩ := heapPop_spec l x l' hpop hh
      obtain ⟨hp', hs'⟩ := ih hheap
      rw [popAll.eq_def, hpop]
      constructor
      · exact (hp'.cons x).trans hperm
      · rw [List.sorted_cons]
        refine ⟨?_, hs'⟩
        intro b hb
        have hbl : b ∈ l := hperm.subset (List.mem_cons_of_mem x (hp'.subset hb))
        obtain ⟨idx, hidx, hbeq⟩ := List.getElem_of_mem hbl
        have hroot := root_min l l.length hh idx hidx
        unfold key hget at hroot
        rw [List.getD_eq_getElem _ _ hidx, hbeq] at hroot
        rw [hx]
        unfold hget
        exact hroot

theorem heapNil : HeapUpTo [] 0 := by
  intro k hk0 hkn
  omega

theorem foldl_heapPush_spec (files : List File) :
    ∀ acc : List File, HeapUpTo acc acc.length →
      HeapUpTo (files.foldl heapPush acc) (files.foldl heapPush acc).length ∧
        (files.foldl heapPush acc).Perm (acc ++ files) := by
  induction files with
  | nil =>
      intro acc h
      simpa using h
  | cons f fs ih =>
      intro acc h
      have hpush : HeapUpTo (heapPush acc f) (heapPush acc f).length := by
        rw [length_heapPush]
        exact heapPush_heap acc f h
      obtain ⟨hh, hp⟩ := ih (heapPush acc f) hpush
      refine ⟨hh, ?_⟩
      simp only [List.foldl_cons]
      have h1 : (heapPush acc f ++ fs).Perm ((f :: acc) ++ fs) :=
        (heapPush_perm acc f).append_right fs
      have h2 : ((f :: acc) ++ fs).Perm (acc ++ f :: fs) := by
        simp only [List.cons_append]
        exact List.perm_middle.symm
      exact (hp.trans h1).trans h2

theorem pushAll_spec (files : List File) :
    HeapUpTo (pushAll files) (pushAll files).length ∧
      (pushAll files).Perm files := by
  have := foldl_heapPush_spec files [] heapNil
  simpa [pushAll] using this


theorem heap_sorted_strict (out files : List File)
    (hperm : out.Perm files) (hnd : (files.map File.path).Nodup)
    (hs : List.Sorted (fun a b : File => a.path ≤ b.path) out) :
    List.Sorted (fun a b : File => a.path < b.path) out := by
  have hndout : (out.map File.path).Nodup :=
    ((hperm.map File.path).nodup_iff).mpr hnd
  have hpw : out.Pairwise (fun a b => File.path a ≠ File.path b) :=
    List.pairwise_map.mp hndout
  exact (hs.and hpw).imp (fun h => lt_of_le_of_ne h.1 h.2)

theorem heap_drain_core (files : List File)
    (hnd : (files.map File.path).Nodup) :
    (popAll (pushAll files)).Perm files ∧
      List.Sorted (fun a b : File => a.path < b.path)
        (popAll (pushAll files)) ∧
      ∀ files' : List File, files'.Perm files →
        popAll (pushAll files') = popAll (pushAll files) := by
  haveI : IsAntisymm File (fun a b : File => a.path < b.path) :=
    ⟨fun a b h1 h2 => absurd (lt_trans h1 h2) (lt_irrefl _)⟩
  obtain ⟨hheap, hperm⟩ := pushAll_spec files
  obtain ⟨hpop, hsort⟩ := popAll_spec (pushAll files) hheap
  have hperm0 : (popAll (pushAll files)).Perm files := hpop.trans hperm
  have hstrict := heap_sorted_strict _ files hperm0 hnd hsort
  refine ⟨hperm0, hstrict, ?_⟩
  intro files' hpf
  obtain ⟨hheap', hperm'⟩ := pushAll_spec files'
  obtain ⟨hpop', hsort'⟩ := popAll_spec (pushAll files') hheap'
  have hnd' : (files'.map File.path).Nodup :=
    ((hpf.map File.path).nodup_iff).mpr hnd
  have hstrict' := heap_sorted_strict _ files' (hpop'.trans hperm') hnd' hsort'
  have hpp : (popAll (pushAll files')).Perm (popAll (pushAll files)) :=
    ((hpop'.trans hperm').trans hpf).trans hperm0.symm
  exact List.eq_of_perm_of_sorted hpp hstrict' hstrict

/-! ## Scan-loop lemmas and claim theorems -/

theorem scanLoop_no_err (m : Matcher) (ig : Option Matcher) :
    ∀ (evs : List ReadEvent) (line : List Nat) (n : Nat)
      (acc : List (Nat × List Nat)),
      (∀ ev ∈ evs, ev.isErr = false) →
      (scanLoop m ig evs line n acc).2 = none := by
  intro evs
  induction evs with
  | nil => intro line n acc _; rfl
  | cons ev rest ih =>
      intro line n acc h
      have hrest : ∀ e ∈ rest, e.isErr = false :=
        fun e he => h e (List.mem_cons_of_mem ev he)
      cases ev with
      | readErr e =>
          exact absurd (h _ (List.mem_cons_self _ _))
            (by simp [ReadEvent.isErr])
      | chunk c b =>
          cases b with
          | true => exact ih (line ++ c) n acc hrest
          | false =>
              simp only [scanLoop]
              split
              · exact ih _ _ _ hrest
              · split
                · exact ih _ _ _ hrest
                · exact ih _ _ _ hrest

theorem scanLoop_err_split (m : Matcher) (ig : Option Matcher) (e : Nat) :
    ∀ (evs1 evs2 : List ReadEvent) (line : List Nat) (n : Nat)
      (acc : List (Nat × List Nat)),
      (∀ ev ∈ evs1, ev.isErr = false) →
      scanLoop m ig (evs1 ++ ReadEvent.readErr e :: evs2) line n acc
        = ((scanLoop m ig evs1 line n acc).1, some e) := by
  intro evs1
  induction evs1 with
  | nil => intro evs2 line n acc _; rfl
  | cons ev rest ih =>
      intro evs2 line n acc h
      have hrest : ∀ ev ∈ rest, ev.isErr = false :=
        fun e he => h e (List.mem_cons_of_mem ev he)
      cases ev with
      | readErr e' =>
          exact absurd (h _ (List.mem_cons_self _ _))
            (by simp [ReadEvent.isErr])
      | chunk c b =>
          cases b with
          | true =>
              simp only [List.cons_append, scanLoop]
              exact ih evs2 (line ++ c) n acc hrest
          | false =>
              simp only [List.cons_append, scanLoop]
              split
              · exact ih evs2 [] (n + 1) acc hrest
              · split
                · exact ih evs2 [] (n + 1) _ hrest
                · exact ih evs2 [] (n + 1) acc hrest


/-- C1 (counterexample): a read error after a matched line leaves the
match recorded: `scanError` is the error, yet `matchedLines` is not
empty. -/
theorem C1_counterexample :
    (File.scan
        (fun _ => Except.ok
          [ReadEvent.chunk [107] false, ReadEvent.readErr 5])
        ⟨"p", some (fun _ => true), none, [], none⟩).scanError = some 5 ∧
      (File.scan
        (fun _ => Except.ok
          [ReadEvent.chunk [107] false, ReadEvent.readErr 5])
        ⟨"p", some (fun _ => true), none, [], none⟩).matchedLines ≠ [] := by
  constructor
  · rfl
  · decide

/-- C1 (amended): on the first read error other than end-of-stream,
`File.Scan` aborts at once (later events are never processed) and returns
that error as the scan error, but the matches accumulated from the
complete lines before the error are retained in `matchedLines`, not
discarded. -/
theorem C1_abort_retains (fs : FS) (f : File) (m : Matcher)
    (evs1 evs2 : List ReadEvent) (e : Nat)
    (hm : f.matchRegex = some m)
    (hfs : fs f.path = Except.ok (evs1 ++ ReadEvent.readErr e :: evs2))
    (hclean : ∀ ev ∈ evs1, ev.isErr = false) :
    (File.scan fs f).scanError = some e ∧
      (File.scan fs f).matchedLines
        = (scanLoop m f.ignoreRegex evs1 [] 0 f.matchedLines).1 := by
  have hsplit := scanLoop_err_split m f.ignoreRegex e evs1 evs2 [] 0
    f.matchedLines hclean
  simp [File.scan, hm, hfs, hsplit]

theorem C1_witness :
    (File.scan
        (fun _ => Except.ok
          [ReadEvent.chunk [107] false, ReadEvent.readErr 5])
        ⟨"p", some (fun _ => true), none, [], none⟩).scanError = some 5 ∧
      (File.scan
        (fun _ => Except.ok
          [ReadEvent.chunk [107] false, ReadEvent.readErr 5])
        ⟨"p", some (fun _ => true), none, [], none⟩).matchedLines
        = (scanLoop (fun _ => true) none
            [ReadEvent.chunk [107] false] [] 0 []).1 :=
  C1_abort_retains _ _ (fun _ => true) [ReadEvent.chunk [107] false] [] 5
    rfl rfl (by decide)


/-- C4: a line matched by the ignore pattern is skipped — the match
pattern is not applied to it and nothing is recorded — but its line
number is still consumed; in the two-line scenario
`["// αβγ", "δεζ"]` with ignore `"^//"` and a non-ASCII match pattern,
exactly line 2 is recorded. -/
theorem C4_ignore_skip :
    (∀ (m g : Matcher) (rest : List ReadEvent) (line c : List Nat)
        (n : Nat) (acc : List (Nat × List Nat)), g (line ++ c) = true →
        scanLoop m (some g) (ReadEvent.chunk c false :: rest) line n acc
          = scanLoop m (some g) rest [] (n + 1) acc) ∧
      (File.scan
          (fun _ => Except.ok
            [ReadEvent.chunk [47, 47, 32, 206, 177, 206, 178, 206, 179] false,
              ReadEvent.chunk [206, 180, 206, 181, 206, 182] false])
          ⟨"f", some (fun l => l.any (fun b => decide (127 < b))),
            some (fun l => decide (l.take 2 = [47, 47])), [], none⟩).matchedLines
        = [(2, [206, 180, 206, 181, 206, 182])] := by
  constructor
  · intro m g rest line c n acc hg
    simp only [scanLoop]
    rw [if_pos]
    exact hg
  · decide

theorem C4_witness :
    scanLoop (fun _ => false) (some (fun l => decide (l.take 2 = [47, 47])))
        [ReadEvent.chunk [47, 47] false] [] 0 []
      = scanLoop (fun _ => false)
          (some (fun l => decide (l.take 2 = [47, 47]))) [] [] 1 [] :=
  C4_ignore_skip.1 _ _ _ _ _ _ _ (by decide)

/-- C5: a logical line delivered as continuation chunks (isPrefix true)
followed by a final chunk is processed exactly like the single chunk
holding the whole concatenated line: assembled untruncated and counted
as one logical line. -/
theorem C5_long_line (m : Matcher) (ig : Option Matcher) :
    ∀ (cs : List (List Nat)) (c : List Nat) (rest : List ReadEvent)
      (line : List Nat) (n : Nat) (acc : List (Nat × List Nat)),
      scanLoop m ig
          (cs.map (fun b => ReadEvent.chunk b true)
            ++ ReadEvent.chunk c false :: rest) line n acc
        = scanLoop m ig (ReadEvent.chunk (cs.flatten ++ c) false :: rest)
            line n acc := by
  intro cs
  induction cs with
  | nil => intro c rest line n acc; simp
  | cons b cs ih =>
      intro c rest line n acc
      simp only [List.map_cons, List.cons_append, List.flatten_cons]
      have hstep :
          scanLoop m ig
              (ReadEvent.chunk b true
                :: (cs.map (fun b => ReadEvent.chunk b true)
                  ++ ReadEvent.chunk c false :: rest)) line n acc
            = scanLoop m ig
                (cs.map (fun b => ReadEvent.chunk b true)
                  ++ ReadEvent.chunk c false :: rest) (line ++ b) n acc := rfl
      rw [hstep, ih]
      simp only [scanLoop, List.append_assoc]

/-- C7: a path that fails to open yields that open error as the scan
error with the (empty) matched-lines map untouched, and a scan that
reaches end-of-stream with no prior read error ends with no scan error,
whatever the matched lines are. -/
theorem C7_open_fail_eof_success :
    (∀ (fs : FS) (f : File) (m : Matcher) (e : Nat),
        f.matchRegex = some m → f.matchedLines = [] →
        fs f.path = Except.error e →
        (File.scan fs f).scanError = some e ∧
          (File.scan fs f).matchedLines = []) ∧
      (∀ (fs : FS) (f : File) (m : Matcher) (evs : List ReadEvent),
        f.matchRegex = some m → fs f.path = Except.ok evs →
        (∀ ev ∈ evs, ev.isErr = false) →
        (File.scan fs f).scanError = none) := by
  constructor
  · intro fs f m e hm hml hfs
    simp [File.scan, hm, hfs, hml]
  · intro fs f m evs hm hfs hclean
    simp [File.scan, hm, hfs, scanLoop_no_err m f.ignoreRegex evs [] 0
      f.matchedLines hclean]

theorem C7_witness :
    ((File.scan (fun _ => Except.error 9)
        ⟨"p", some (fun _ => true), none, [], none⟩).scanError = some 9 ∧
      (File.scan (fun _ => Except.error 9)
        ⟨"p", some (fun _ => true), none, [], none⟩).matchedLines = []) ∧
      (File.scan (fun _ => Except.ok [ReadEvent.chunk [1] false])
        ⟨"q", some (fun _ => false), none, [], none⟩).scanError = none :=
  ⟨C7_open_fail_eof_success.1 _ _ (fun _ => true) 9 rfl rfl rfl,
    C7_open_fail_eof_success.2 _ _ (fun _ => false)
      [ReadEvent.chunk [1] false] rfl rfl (by decide)⟩

/-- C9: with a nil match pattern `File.Scan` returns at once, leaving the
`File` unchanged — in particular it never opens the path (the filesystem
is irrelevant), the matched lines stay as they were (empty for a freshly
constructed `File`) and the scan error stays nil. -/
theorem C9_nil_matcher (fs : FS) (f : File) (h : f.matchRegex = none) :
    File.scan fs f = f := by
  unfold File.scan
  rw [h]

theorem C9_witness :
    File.scan (fun _ => Except.error 3) ⟨"p", none, none, [], none⟩
      = ⟨"p", none, none, [], none⟩ :=
  C9_nil_matcher _ _ rfl


theorem dataScanLoop_compile_err (fn : String → Bool) (e : Nat) :
    ∀ (lines : List String) (n : Nat) (acc : List (Nat × String)),
      (∃ l ∈ lines, fn l = false) →
      (dataScanLoop fn (Except.error e) lines n acc).2 = some e := by
  intro lines
  induction lines with
  | nil => intro n acc h; simp at h
  | cons l rest ih =>
      intro n acc h
      by_cases hl : fn l
      · simp only [dataScanLoop]
        rw [if_pos hl]
        apply ih
        obtain ⟨lw, hlw, hflw⟩ := h
        cases List.mem_cons.mp hlw with
        | inl heq => exact absurd (heq ▸ hflw) (by simp [hl])
        | inr h2 => exact ⟨lw, h2, hflw⟩
      · simp only [dataScanLoop]
        rw [if_neg hl]

/-- C8 (counterexample): `Data.Scan` compiles the match pattern during
the scan, so a pattern whose compilation fails (modelled by
`Except.error 7`) is reported as that file's own `ScanError` — a per-file
scan does report a pattern-compilation failure as its own failure. -/
theorem C8_counterexample :
    (Data.scan (fun _ => Except.ok (["hello"], none)) (fun _ => false)
        (Data.new "p" (Except.error 7))).ScanError = some 7 := by
  rfl

/-- C8 (amended): in the `File`-based pipeline the patterns are compiled
before scanning (`File.Scan` only ever receives compiled matchers), but
`Data.Scan` evaluates `regexp.MatchString` per line: whenever the match
pattern fails to compile and any non-comment line is reached, the
compilation error becomes that `Data`'s per-file `ScanError` and the scan
never completes (`isScanned` keeps its prior value, false for a fresh
`Data`). -/
theorem C8_compile_err_per_file (dfs : DFS) (fn : String → Bool) (d : Data)
    (e : Nat) (lines : List String) (serr : Option Nat)
    (hms : d.matchString = Except.error e)
    (hdfs : dfs d.path = Except.ok (lines, serr))
    (hl : ∃ l ∈ lines, fn l = false) :
    (Data.scan dfs fn d).ScanError = some e ∧
      (Data.scan dfs fn d).isScanned = d.isScanned := by
  have h2 := dataScanLoop_compile_err fn e lines 1
    d.linesContainingMatchString hl
  rcases hres : dataScanLoop fn (Except.error e) lines 1
    d.linesContainingMatchString with ⟨acc, r2⟩
  rw [hres] at h2
  simp only at h2
  subst h2
  simp [Data.scan, hdfs, hms, hres]

theorem C8_witness :
    (Data.scan (fun _ => Except.ok (["line"], none)) (fun _ => false)
        (Data.new "q" (Except.error 11))).ScanError = some 11 ∧
      (Data.scan (fun _ => Except.ok (["line"], none)) (fun _ => false)
          (Data.new "q" (Except.error 11))).isScanned
        = (Data.new "q" (Except.error 11)).isScanned :=
  C8_compile_err_per_file _ _ _ 11 ["line"] none rfl rfl
    ⟨"line", by simp, rfl⟩

theorem data_scan_err_cases (dfs : DFS) (fn : String → Bool) (d : Data)
    (h0 : d.isScanned = false) :
    (Data.scan dfs fn d).isScanned = false ∨
      (Data.scan dfs fn d).ScanError = d.ScanError := by
  unfold Data.scan
  split
  · exact Or.inl h0
  · split
    · exact Or.inl h0
    · split
      · exact Or.inl h0
      · exact Or.inr rfl

theorem data_scan_error_not_scanned (dfs : DFS) (fn : String → Bool)
    (d : Data) (h0 : d.isScanned = false) (he : d.ScanError = none)
    (herr : (Data.scan dfs fn d).ScanError ≠ none) :
    (Data.scan dfs fn d).isScanned = false := by
  rcases data_scan_err_cases dfs fn d h0 with h | h
  · exact h
  · exact absurd (h.trans he) herr

/-- C10: `HasMatchedString` is true exactly when the scan completed
(`isScanned`) and the matched-lines map is non-empty; consequently a scan
that ends with an error (on a fresh, unscanned `Data`) reports false even
when the map already holds matches accumulated before the error. -/
theorem C10_has_matched :
    (∀ d : Data, d.hasMatchedString = true ↔
        (d.isScanned = true ∧ d.linesContainingMatchString ≠ [])) ∧
      (∀ (dfs : DFS) (fn : String → Bool) (d : Data),
        d.isScanned = false → d.ScanError = none →
        (Data.scan dfs fn d).ScanError ≠ none →
        (Data.scan dfs fn d).hasMatchedString = false) := by
  constructor
  · intro d
    unfold Data.hasMatchedString
    cases hs : d.isScanned with
    | false => simp
    | true =>
        simp only [Bool.not_true, Bool.false_eq_true, if_false,
          decide_eq_true_eq, true_and]
        exact ⟨fun h => List.ne_nil_of_length_pos h,
          fun h => List.length_pos_of_ne_nil h⟩
  · intro dfs fn d h0 he herr
    have := data_scan_error_not_scanned dfs fn d h0 he herr
    unfold Data.hasMatchedString
    rw [this]
    simp

theorem C10_witness :
    (Data.scan (fun _ => Except.ok (["m"], some 3)) (fun _ => false)
        (Data.new "p" (Except.ok (fun _ => true)))).hasMatchedString
        = false ∧
      (Data.scan (fun _ => Except.ok (["m"], some 3)) (fun _ => false)
          (Data.new "p"
            (Except.ok (fun _ => true)))).linesContainingMatchString
        ≠ [] :=
  ⟨C10_has_matched.2 _ _ _ rfl rfl (by decide), by decide⟩


theorem sfreach_inv (fs : FS) (m ig : Option Matcher)
    (filePaths : List String) :
    ∀ s : SFState, SFReach fs m ig filePaths s →
      ∃ ds : List String,
        s.delivered = ds.map (scanNew fs m ig) ∧
          (ds ++ s.pending).Perm filePaths ∧
          (s.closed = true → s.pending = []) := by
  intro s h
  induction h with
  | refl => exact ⟨[], rfl, by simp, by simp⟩
  | @tail b c hab hbc ih =>
      obtain ⟨ds, hdel, hperm, hclosed⟩ := ih
      cases hbc with
      | deliver p hp hc =>
          refine ⟨ds ++ [p], ?_, ?_, by simp⟩
          · simp [hdel]
          · have h1 : ((ds ++ [p]) ++ b.pending.erase p).Perm
                (ds ++ (p :: b.pending.erase p)) := by
              simp [List.append_assoc]
            have h2 : (p :: b.pending.erase p).Perm b.pending :=
              (List.perm_cons_erase hp).symm
            exact (h1.trans ((h2.append_left ds))).trans hperm
      | close hpend hc =>
          refine ⟨ds, hdel, ?_, fun _ => rfl⟩
          rw [hpend] at hperm
          simpa using hperm

/-- C3: for any schedule of a `ScanFiles` batch, once the completion
stream has been closed, exactly one scanned `File` per input path has
been delivered (the delivered results are a permutation of scanning each
input path), so their number equals the number of input paths. -/
theorem C3_one_result_per_path (fs : FS) (m ig : Option Matcher)
    (filePaths : List String) (s : SFState) (_hne : filePaths ≠ [])
    (hreach : SFReach fs m ig filePaths s) (hclosed : s.closed = true) :
    s.delivered.length = filePaths.length ∧
      s.delivered.Perm (filePaths.map (scanNew fs m ig)) := by
  obtain ⟨ds, hdel, hperm, hcl⟩ := sfreach_inv fs m ig filePaths s hreach
  rw [hcl hclosed, List.append_nil] at hperm
  constructor
  · rw [hdel, List.length_map, hperm.length_eq]
  · rw [hdel]
    exact hperm.map _

theorem C3_witness :
    (SFState.mk []
        [scanNew (fun _ => Except.ok []) none none "a",
          scanNew (fun _ => Except.ok []) none none "b"] true).delivered.length
        = ["a", "b"].length ∧
      (SFState.mk []
          [scanNew (fun _ => Except.ok []) none none "a",
            scanNew (fun _ => Except.ok []) none none "b"]
          true).delivered.Perm
        (["a", "b"].map (scanNew (fun _ => Except.ok []) none none)) := by
  apply C3_one_result_per_path (fun _ => Except.ok []) none none ["a", "b"]
    _ (by simp)
  · show SFReach _ _ _ _ _
    apply Relation.ReflTransGen.tail
    apply Relation.ReflTransGen.tail
    apply Relation.ReflTransGen.tail
    exact Relation.ReflTransGen.refl
    · exact SFStep.deliver ⟨["a", "b"], [], false⟩ "a" (by simp) rfl
    · exact SFStep.deliver ⟨["b"], [scanNew (fun _ => Except.ok []) none none "a"], false⟩ "b" (by simp) rfl
    · exact SFStep.close ⟨[], [scanNew (fun _ => Except.ok []) none none "a", scanNew (fun _ => Except.ok []) none none "b"], false⟩ rfl rfl
  · rfl


theorem aggregate_foldl (results : List File) :
    ∀ st : AggState,
      (results.foldl aggStep st).scanErrorsCnt
          = st.scanErrorsCnt
            + (results.filter (fun f => f.scanError.isSome)).length ∧
        (results.foldl aggStep st).report.Perm
          (st.report ++ results.filter (fun f =>
            f.scanError.isNone && decide (0 < f.foundLines.length))) := by
  induction results with
  | nil => intro st; simp
  | cons f rest ih =>
      intro st
      simp only [List.foldl_cons, List.filter_cons]
      by_cases he : f.scanError.isSome
      · have hstep : aggStep st f
            = { st with scanErrorsCnt := st.scanErrorsCnt + 1 } := by
          simp [aggStep, he]
        rw [hstep]
        obtain ⟨h1, h2⟩ := ih { st with scanErrorsCnt := st.scanErrorsCnt + 1 }
        refine ⟨?_, ?_⟩
        · rw [h1]
          simp [he]
          omega
        · have hne : (f.scanError.isNone && decide (0 < f.foundLines.length))
              = false := by
            simp [Option.isNone_iff_eq_none]
            intro hn
            rw [hn] at he
            simp at he
          rw [hne]
          simpa using h2
      · by_cases hm : 0 < f.foundLines.length
        · have hstep : aggStep st f
              = { st with report := heapPush st.report f } := by
            simp [aggStep, he, hm]
          rw [hstep]
          obtain ⟨h1, h2⟩ := ih { st with report := heapPush st.report f }
          have hcond : (f.scanError.isNone
              && decide (0 < f.foundLines.length)) = true := by
            simp [he, hm, Option.isNone_iff_eq_none]
            cases hfe : f.scanError with
            | none => rfl
            | some e => rw [hfe] at he; simp at he
          rw [hcond]
          refine ⟨by rw [h1]; simp [he], ?_⟩
          simp only [if_true]
          have h3 : (heapPush st.report f
                ++ rest.filter (fun f => f.scanError.isNone
                  && decide (0 < f.foundLines.length))).Perm
              ((f :: st.report)
                ++ rest.filter (fun f => f.scanError.isNone
                  && decide (0 < f.foundLines.length))) :=
            (heapPush_perm st.report f).append_right _
          have h4 : ((f :: st.report)
                ++ rest.filter (fun f => f.scanError.isNone
                  && decide (0 < f.foundLines.length))).Perm
              (st.report ++ f :: rest.filter (fun f => f.scanError.isNone
                  && decide (0 < f.foundLines.length))) := by
            simp only [List.cons_append]
            exact List.perm_middle.symm
          have h5 := (h2.trans h3).trans h4
          simpa using h5
        · have hstep : aggStep st f = st := by
            simp [aggStep, he, hm]
          rw [hstep]
          obtain ⟨h1, h2⟩ := ih st
          have hcond : (f.scanError.isNone
              && decide (0 < f.foundLines.length)) = false := by
            simp [hm]
          rw [hcond]
          exact ⟨by rw [h1]; simp [he], by simpa using h2⟩

/-- C6: `main`'s aggregation of the completion stream counts exactly the
failed files in the error counter (a failed file is never pushed into the
sorted report), and the report heap holds exactly the non-failed files
with a non-empty matched-lines map. -/
theorem C6_aggregation (results : List File) :
    (aggregate results).scanErrorsCnt
        = (results.filter (fun f => f.scanError.isSome)).length ∧
      (aggregate results).report.Perm
        (results.filter (fun f =>
          f.scanError.isNone && decide (0 < f.foundLines.length))) := by
  have h := aggregate_foldl results ⟨[], 0⟩
  simpa [aggregate] using h


/-- C2: for any multiset of `File`s with pairwise-distinct paths and any
insertion order, draining the `Heap` as `Heap.Print` does (`heap.Pop`
until empty) yields exactly the inserted files, strictly ascending by
path (Lean's `String` order is lexicographic, as Go's `<`), with no
omissions or duplicates, and the output is invariant under permuting the
insertion order. -/
theorem C2_heap_drain_sorted (files : List File)
    (hnd : (files.map File.path).Nodup) :
    (popAll (pushAll files)).Perm files ∧
      List.Sorted (fun a b : File => a.path < b.path)
        (popAll (pushAll files)) ∧
      ∀ files' : List File, files'.Perm files →
        popAll (pushAll files') = popAll (pushAll files) :=
  heap_drain_core files hnd

theorem C2_witness :
    (popAll (pushAll [⟨"b", none, none, [], none⟩,
        ⟨"a", none, none, [], none⟩])).Perm
        [⟨"b", none, none, [], none⟩, ⟨"a", none, none, [], none⟩] ∧
      popAll (pushAll [⟨"a", none, none, [], none⟩,
          ⟨"b", none, none, [], none⟩])
        = popAll (pushAll [⟨"b", none, none, [], none⟩,
            ⟨"a", none, none, [], none⟩]) :=
  ⟨(C2_heap_drain_sorted
      [⟨"b", none, none, [], none⟩, ⟨"a", none, none, [], none⟩]
      (by decide)).1,
    (C2_heap_drain_sorted
      [⟨"b", none, none, [], none⟩, ⟨"a", none, none, [], none⟩]
      (by decide)).2.2
      [⟨"a", none, none, [], none⟩, ⟨"b", none, none, [], none⟩]
      (List.Perm.swap _ _ _)⟩

end Kextractor
